import Mathlib

/-!
Verification development for `scripts/seed_uflpa.py`: a batch script that
segments the text of a Federal Register notice into raw candidate entries,
parses each into a `{brand, aliases}` record, de-duplicates by lowercased
brand, and renders the result as one SQL INSERT statement.

Strings are modelled as `List Char`; Python's character-level operations
(`str.strip`, `str.rstrip(chars)`, `re.sub(r'\s+', ' ', _)`, `str.lower`,
regex search/split with leftmost-first, greedy-with-backtracking semantics)
are translated operation by operation below.
-/

namespace Uflpa

/-- Python `str.isspace` over the ASCII whitespace characters that can occur
here: space, tab, newline, carriage return, vertical tab, form feed. -/
def pyIsSpace (c : Char) : Bool :=
  c = ' ' || c = '\t' || c = '\n' || c = '\r' || c = Char.ofNat 11 || c = Char.ofNat 12

/-- Python `str.lower` on a single ASCII character. -/
def pyLower (c : Char) : Char :=
  if 'A' ≤ c ∧ c ≤ 'Z' then Char.ofNat (c.toNat + 32) else c

/-- Lowercase an entire string (Python `str.lower`). -/
def lc (l : List Char) : List Char := l.map pyLower

/-- Case-insensitive prefix test (regex literal under `re.IGNORECASE`). -/
def ciIsPrefixOf : List Char → List Char → Bool
  | [], _ => true
  | _ :: _, [] => false
  | p :: ps, c :: cs => pyLower p = pyLower c && ciIsPrefixOf ps cs

/-- Substring containment: `pat` occurs contiguously inside `l`
(the semantics of `re.search` on a literal alternation branch). -/
def containsSub (pat : List Char) : List Char → Bool
  | [] => pat.isEmpty
  | c :: cs => pat.isPrefixOf (c :: cs) || containsSub pat cs

/-- One step of `re.sub(r'\s+', ' ', s)`: the flag records whether the
previously emitted character was the collapsing space. -/
def collapseAux : Bool → List Char → List Char
  | _, [] => []
  | prevWs, c :: cs =>
    if pyIsSpace c then
      if prevWs then collapseAux true cs else ' ' :: collapseAux true cs
    else c :: collapseAux false cs

/-- Python `re.sub(r'\s+', ' ', s)`: every maximal whitespace run becomes a
single space. -/
def collapseWs (l : List Char) : List Char := collapseAux false l

/-- Python `str.lstrip()` (whitespace). -/
def lstripWs (l : List Char) : List Char := l.dropWhile pyIsSpace

/-- Right strip by a character predicate, written structurally:
remove the maximal trailing run of characters satisfying `p`. -/
def rstripBy (p : Char → Bool) : List Char → List Char
  | [] => []
  | c :: cs =>
    match rstripBy p cs with
    | [] => if p c then [] else [c]
    | r => c :: r

/-- Python `str.rstrip()` (whitespace). -/
def rstripWs (l : List Char) : List Char := rstripBy pyIsSpace l

/-- Python `str.strip()` (whitespace, both ends). -/
def stripWs (l : List Char) : List Char := rstripWs (lstripWs l)

/-- Python `str.strip(chars)` for an explicit character set (both ends). -/
def stripSet (S : List Char) (l : List Char) : List Char :=
  rstripBy (fun c => S.contains c) (l.dropWhile (fun c => S.contains c))

/-- Python `str.rstrip(chars)` for an explicit character set. -/
def rstripSet (S : List Char) (l : List Char) : List Char :=
  rstripBy (fun c => S.contains c) l

/-- The corporate/industry suffix keywords of the segmentation regex in
`split_into_raw_entries` (case-sensitive there), in source order. -/
def segKeywords : List (List Char) :=
  ["Co.".data, "Ltd.".data, "Inc.".data, "Corp.".data, "Group".data, "Center".data,
   "Park".data, "Holdings".data, "Technology".data, "Industry".data, "Trading".data,
   "Corporation".data, "Mine".data, "Mining".data, "Textile".data, "Silicon".data,
   "Energy".data, "Semiconductor".data, "Foods".data, "Logistics".data, "XPCC".data]

/-- The keyword set of the rejection filter in `parse_entry`: the
segmentation set plus the two extra brand-name literals. -/
def parseKeywords : List (List Char) :=
  segKeywords ++ ["Ninestar".data, "Camel".data]

/-- Case-sensitive keyword search of the segmenter
(`re.search(r'Co\.|Ltd\.|...|XPCC', line)`). -/
def hasSegKeyword (l : List Char) : Bool :=
  segKeywords.any (fun k => containsSub k l)

/-- Case-insensitive keyword search of the parser
(`re.search(r'Co\.|...|Ninestar|Camel', brand, re.IGNORECASE)`). -/
def hasKeywordCI (l : List Char) : Bool :=
  parseKeywords.any (fun k => containsSub (lc k) (lc l))

/-!
The alias clause regex
`\((?:also known as|formerly known as|including \w+ aliases?):?\s*([^)]+)\)`
compiled with `re.IGNORECASE`, searched with leftmost-first semantics.
The matcher below resolves the greedy/backtracking behaviour explicitly:
`\s*` is maximal subject to `[^)]+` still being non-empty, and the optional
`:` and the optional trailing `s` are consumed greedily with a fallback.
-/

/-- Regex word character `\w` (ASCII). -/
def isWordChar (c : Char) : Bool := c.isAlpha || c.isDigit || c = '_'

/-- Match `\s*([^)]+)\)` against `t`, returning the capture group.
The first `')'` in `t` closes the group; the whitespace prefix is consumed
by `\s*` except that, when everything before `')'` is whitespace, `\s*`
backtracks one character so that `[^)]+` is non-empty. -/
def matchGroupTail (t : List Char) : Option (List Char) :=
  let before := t.takeWhile (fun c => c ≠ ')')
  if before.length = t.length then none
  else
    let j := before.length
    let k0 := (before.takeWhile pyIsSpace).length
    if k0 < j then some (before.drop k0)
    else if 0 < j then some (before.drop (j - 1))
    else none

/-- Match `:?\s*([^)]+)\)` against `t` (greedy `:?` with fallback). -/
def matchColonTail (t : List Char) : Option (List Char) :=
  match t with
  | ':' :: cs => (matchGroupTail cs).orElse (fun _ => matchGroupTail t)
  | _ => matchGroupTail t

/-- Match `s?:?\s*([^)]+)\)` against `t` (greedy optional `s`, case
insensitive, with fallback). -/
def matchSOptTail (t : List Char) : Option (List Char) :=
  match t with
  | c :: cs =>
    if pyLower c = 's' then (matchColonTail cs).orElse (fun _ => matchColonTail t)
    else matchColonTail t
  | [] => matchColonTail t

/-- Match the alias pattern body after the opening parenthesis: one of the
three alternatives (distinguished by their first letter) followed by
`:?\s*([^)]+)\)`. Returns the capture group. -/
def matchAfterParen (t : List Char) : Option (List Char) :=
  if ciIsPrefixOf "also known as".data t then
    matchColonTail (t.drop 13)
  else if ciIsPrefixOf "formerly known as".data t then
    matchColonTail (t.drop 17)
  else if ciIsPrefixOf "including ".data t then
    let t1 := t.drop 10
    let w := t1.takeWhile isWordChar
    if w.length = 0 then none
    else
      let t2 := t1.drop w.length
      if ciIsPrefixOf " aliase".data t2 then matchSOptTail (t2.drop 7)
      else none
  else none

/-- Match the full alias pattern at the current position. -/
def matchAliasAt : List Char → Option (List Char)
  | '(' :: t => matchAfterParen t
  | _ => none

/-- `ALIAS_PATTERN.search`: scan left to right, return the match start index
and the capture group of the first position where the pattern matches. -/
def aliasSearch : List Char → Option (Nat × List Char)
  | [] => none
  | c :: cs =>
    match matchAliasAt (c :: cs) with
    | some cap => some (0, cap)
    | none => (aliasSearch cs).map (fun ic => (ic.1 + 1, ic.2))

/-!
The alias separator regex `;\s*(?:and\s+)?|,\s*and\s+|\s+and\s+` of
`re.split` (case-sensitive). At a given position at most one alternative
can apply (they start with `;`, `,`, whitespace respectively), and each is
deterministic because `and` cannot begin inside a whitespace run.
-/

/-- Try to match one separator alternative at the head of `t`; on success
return the remainder of `t` after the separator. -/
def sepMatch (t : List Char) : Option (List Char) :=
  match t with
  | [] => none
  | c :: cs =>
    if c = ';' then
      let r := cs.dropWhile pyIsSpace
      if "and".data.isPrefixOf r then
        let r2 := r.drop 3
        let w := r2.takeWhile pyIsSpace
        if w.length = 0 then some r else some (r2.drop w.length)
      else some r
    else if c = ',' then
      let r := cs.dropWhile pyIsSpace
      if "and".data.isPrefixOf r then
        let r2 := r.drop 3
        let w := r2.takeWhile pyIsSpace
        if w.length = 0 then none else some (r2.drop w.length)
      else none
    else if pyIsSpace c then
      let r := (c :: cs).dropWhile pyIsSpace
      if "and".data.isPrefixOf r then
        let r2 := r.drop 3
        let w := r2.takeWhile pyIsSpace
        if w.length = 0 then none else some (r2.drop w.length)
      else none
    else none

/-- Scanner of `re.split`: cut the string at every leftmost,
non-overlapping separator match. Fuel bounds the recursion (every step
consumes at least one character, so `t.length + 1` suffices). -/
def splitAliasesAux : Nat → List Char → List Char → List (List Char)
  | 0, acc, rest => [acc.reverse ++ rest]
  | _ + 1, acc, [] => [acc.reverse]
  | fuel + 1, acc, c :: cs =>
    match sepMatch (c :: cs) with
    | some rest => acc.reverse :: splitAliasesAux fuel [] rest
    | none => splitAliasesAux fuel (c :: acc) cs

/-- `re.split(r';\s*(?:and\s+)?|,\s*and\s+|\s+and\s+', raw_aliases)`. -/
def splitAliases (t : List Char) : List (List Char) :=
  splitAliasesAux (t.length + 1) [] t

/-- An entity record: the `{brand, aliases}` dict built by `parse_entry`. -/
structure Entity where
  brand : List Char
  aliases : List (List Char)
deriving DecidableEq, Repr

/-- Trailing punctuation stripped from the brand in the alias branch. -/
def brandPunctAka : List Char := ['.', ',', ';', '(']

/-- Trailing punctuation stripped from the brand in the no-alias branch. -/
def brandPunctPlain : List Char := ['.', ',', ';']

/-- The brand computed by `parse_entry` from the collapsed raw string:
`raw[:aka_match.start()].strip().rstrip(".,;(").strip()` when the alias
pattern matches, else `raw.strip().rstrip(".,;").strip()`, followed in both
cases by `re.sub(r'\s+', ' ', brand).strip()`. -/
def deriveBrand (raw : List Char) : List Char :=
  match aliasSearch raw with
  | some ic => stripWs (collapseWs (stripWs (rstripSet brandPunctAka (stripWs (raw.take ic.1)))))
  | none => stripWs (collapseWs (stripWs (rstripSet brandPunctPlain (stripWs raw))))

/-- The aliases computed by `parse_entry` from the collapsed raw string:
split the capture group, keep parts whose strip is non-empty and longer
than 3 characters, and clean each with `strip().strip(";,").strip()`. -/
def deriveAliases (raw : List Char) : List (List Char) :=
  match aliasSearch raw with
  | some ic =>
    (splitAliases ic.2).filterMap (fun p =>
      let p1 := stripWs p
      if p1 ≠ [] ∧ 3 < p1.length then some (stripWs (stripSet [';', ','] p1))
      else none)
  | none => []

/-- `parse_entry(raw)`: collapse whitespace, reject short input, extract
brand and aliases, reject short or keyword-free brands. The function is
total: no input raises. -/
def parse_entry (s : List Char) : Option Entity :=
  if (stripWs (collapseWs s)).length < 5 then none
  else if (deriveBrand (stripWs (collapseWs s))).length < 5 then none
  else if hasKeywordCI (deriveBrand (stripWs (collapseWs s))) = false then none
  else some ⟨deriveBrand (stripWs (collapseWs s)), deriveAliases (stripWs (collapseWs s))⟩

/-!
Section locator: `get_entity_list_text` takes the suffix of the text from
the LAST occurrence of the marker `"Appendix 1"` (`str.rfind`), and returns
the text unchanged when the marker is absent (`rfind` returns `-1`).
-/

/-- The section marker literal. -/
def appendixMarker : List Char := "Appendix 1".data

/-- The marker occurs in `t` at position `i`. -/
def occursAt (m t : List Char) (i : Nat) : Prop :=
  m.isPrefixOf (t.drop i) = true

instance (m t : List Char) (i : Nat) : Decidable (occursAt m t i) := by
  unfold occursAt; infer_instance

/-- Scan positions `k, k-1, ..., 0` for an occurrence of `m` in `t` and
return the first (hence largest) hit. -/
def rfindAux (m t : List Char) : Nat → Option Nat
  | 0 => if m.isPrefixOf t then some 0 else none
  | k + 1 => if m.isPrefixOf (t.drop (k + 1)) then some (k + 1) else rfindAux m t k

/-- Python `t.rfind(m)`: index of the last occurrence, `none` for `-1`. -/
def rfind (m t : List Char) : Option Nat := rfindAux m t t.length

/-- `get_entity_list_text(full_text)`. -/
def get_entity_list_text (t : List Char) : List Char :=
  match rfind appendixMarker t with
  | none => t
  | some i => t.drop i

/-!
Entry segmenter, consolidated-list pass (`split_into_raw_entries`, part 2):
a line-accumulator state machine over the non-empty stripped lines of the
section text. Raw entries are tagged with the strategy that produced them.
-/

/-- The tag of a raw entry. -/
inductive Tag
  | bullet
  | list
deriving DecidableEq, Repr

/-- Header-line test:
`re.match(r'UFLPA Section|Entities identified|The FLETF|above may|continue to|information about|that meet|^Section \d', line, re.IGNORECASE)`.
`re.match` anchors every alternative at position 0. -/
def isHeaderLine (l : List Char) : Bool :=
  ciIsPrefixOf "UFLPA Section".data l ||
  ciIsPrefixOf "Entities identified".data l ||
  ciIsPrefixOf "The FLETF".data l ||
  ciIsPrefixOf "above may".data l ||
  ciIsPrefixOf "continue to".data l ||
  ciIsPrefixOf "information about".data l ||
  ciIsPrefixOf "that meet".data l ||
  (ciIsPrefixOf "Section ".data l &&
    (match l.drop 8 with
     | c :: _ => c.isDigit
     | [] => false))

/-- New-entry test: first character uppercase, a case-sensitive corporate
suffix keyword present, and the line does not start with `"The "` or
`"These "`. -/
def isNewEntryLine (l : List Char) : Bool :=
  (match l with
   | c :: _ => c.isUpper
   | [] => false) &&
  hasSegKeyword l &&
  !("The ".data.isPrefixOf l) && !("These ".data.isPrefixOf l)

/-- Continuation test `re.match(r'^[A-Z][a-z]+.*;', line)`: an uppercase
letter, at least one lowercase letter, then a `';'` with no newline before
it (`.` does not match newlines). -/
def upperSemiMatch (l : List Char) : Bool :=
  match l with
  | c0 :: c1 :: rest =>
    c0.isUpper && c1.isLower &&
    (let before := rest.takeWhile (fun c => c ≠ ';')
     before.length < rest.length && before.all (fun c => c ≠ '\n'))
  | _ => false

/-- Continuation-line test of the accumulator. -/
def isContinuationLine (l : List Char) : Bool :=
  (match l with
   | c :: _ => c = '(' || c.isLower
   | [] => false) ||
  "Ltd.".data.isPrefixOf l || "Co.,".data.isPrefixOf l ||
  "and ".data.isPrefixOf l || upperSemiMatch l

/-- Flush the in-progress entry, if any, as a `list`-tagged raw entry. -/
def flushCur : Option (List Char) → List (Tag × List Char)
  | some c => [(Tag.list, c)]
  | none => []

/-- The line-accumulator state machine of `split_into_raw_entries`
(part 2): headers flush and are discarded; a new-entry line flushes and
starts accumulating; a continuation line is space-joined onto the current
entry; any other line flushes and is dropped; end of input flushes. -/
def processLines (cur : Option (List Char)) : List (List Char) → List (Tag × List Char)
  | [] => flushCur cur
  | line :: rest =>
    if isHeaderLine line then
      flushCur cur ++ processLines none rest
    else if isNewEntryLine line then
      flushCur cur ++ processLines (some line) rest
    else
      match cur with
      | some c =>
        if isContinuationLine line then processLines (some (c ++ ' ' :: line)) rest
        else (Tag.list, c) :: processLines none rest
      | none => processLines none rest

/-!
Deduplicating main loop (`main`, lines 193-201): parse every raw entry and
keep the first record for each lowercased brand.
-/

/-- The dedup loop with its `seen` set of lowercased brands, emitting
records in order. -/
def dedupAux (seen : List (List Char)) : List (Tag × List Char) → List Entity
  | [] => []
  | raw :: rest =>
    match parse_entry raw.2 with
    | none => dedupAux seen rest
    | some e =>
      if lc e.brand ∈ seen then dedupAux seen rest
      else e :: dedupAux (lc e.brand :: seen) rest

/-- The deduplicated entity list built by `main` from the raw entries. -/
def mainEntities (raws : List (Tag × List Char)) : List Entity :=
  dedupAux [] raws

/-- The records parsed from the raw entries, before deduplication. -/
def parsedOf (raws : List (Tag × List Char)) : List Entity :=
  raws.filterMap (fun raw => parse_entry raw.2)

/-!
SQL renderer (`escape_sql`, `generate_sql`). Quote-like and brace
characters are built explicitly to keep the literals readable.
-/

/-- The single-quote character `'`. -/
def sq : Char := Char.ofNat 39

/-- The double-quote character. -/
def dq : Char := Char.ofNat 34

/-- The opening brace character. -/
def lbr : Char := Char.ofNat 123

/-- The closing brace character. -/
def rbr : Char := Char.ofNat 125

/-- `escape_sql(s)`: double every embedded single quote. -/
def escape_sql : List Char → List Char
  | [] => []
  | c :: cs => if c = sq then sq :: sq :: escape_sql cs else c :: escape_sql cs

/-- The alias array literal: `"{" + ",".join(f'"{escape_sql(a)}"' ...) + "}"`. -/
def aliasLiteral (aliases : List (List Char)) : List Char :=
  lbr :: (List.intercalate [','] (aliases.map (fun a => dq :: escape_sql a ++ [dq]))) ++ [rbr]

/-- The fixed boilerplate reason string. -/
def reasonText : List Char :=
  "Listed on UFLPA Entity List. Subject to rebuttable presumption of forced labor under 19 U.S.C. § 1307.".data

/-- Wrap a rendered value in single quotes. -/
def sqWrap (v : List Char) : List Char := sq :: v ++ [sq]

/-- One row of the INSERT statement, for one entity. -/
def rowFor (e : Entity) : List Char :=
  "  (".data ++ sqWrap (escape_sql e.brand) ++ ", ".data ++
  sqWrap (aliasLiteral e.aliases) ++ ", ".data ++
  sqWrap (lbr :: dq :: "general".data ++ [dq, rbr]) ++ ", ".data ++
  sqWrap (lbr :: dq :: "CN".data ++ [dq, rbr]) ++ ", ".data ++
  sqWrap "high".data ++ ", ".data ++
  sqWrap (lbr :: dq :: "UFLPA".data ++ [dq, rbr]) ++ ", ".data ++
  sqWrap (escape_sql reasonText) ++ ", ".data ++
  sqWrap "2025-01-15".data ++ ")".data

/-- `generate_sql(entities)`: header comment lines, the INSERT prelude, and
the comma-newline-joined rows ending in a semicolon, all newline-joined. -/
def generate_sql (entities : List Entity) : List Char :=
  List.intercalate ['\n']
    ["-- UFLPA Entity List (January 15, 2025)".data,
     "-- Generated by scripts/seed_uflpa.py".data,
     "-- ".data ++ (toString entities.length).data ++ " entities".data,
     [],
     "INSERT INTO companies (brand, aliases, product_categories, countries_of_origin, risk_level, sources, reason, last_updated)".data,
     "VALUES".data,
     List.intercalate (',' :: ['\n']) (entities.map rowFor) ++ ";".data]

/-- Adjacent-pair whitespace check: no two consecutive whitespace
characters anywhere in the list. -/
def noDoubleWs : List Char → Bool
  | [] => true
  | [_] => true
  | a :: b :: rest => !(pyIsSpace a && pyIsSpace b) && noDoubleWs (b :: rest)

/-- First character of an emitted list entry is uppercase, a case-sensitive
segmentation keyword occurs in it, and it does not start with `"The "` or
`"These "`. -/
def entryShape (l : List Char) : Prop :=
  (l.headD ' ').isUpper = true ∧ hasSegKeyword l = true ∧
  "The ".data.isPrefixOf l = false ∧ "These ".data.isPrefixOf l = false

instance (l : List Char) : Decidable (entryShape l) := by
  unfold entryShape; infer_instance

/-! ### Helper lemmas about the string primitives -/

theorem nilIsPrefixOf (l : List Char) : List.isPrefixOf [] l = true := by
  cases l <;> rfl

theorem isPrefixOf_append {p l d : List Char} (h : p.isPrefixOf l = true) :
    p.isPrefixOf (l ++ d) = true := by
  induction p generalizing l with
  | nil => exact nilIsPrefixOf _
  | cons a as ih =>
    cases l with
    | nil => simp [List.isPrefixOf] at h
    | cons b bs =>
      simp only [List.isPrefixOf, List.cons_append, Bool.and_eq_true, beq_iff_eq] at h ⊢
      exact ⟨h.1, ih h.2⟩

theorem isPrefixOf_append_cases {t c d : List Char}
    (h : t.isPrefixOf (c ++ d) = true) :
    t.isPrefixOf c = true ∨ c.isPrefixOf t = true := by
  induction c generalizing t with
  | nil => right; exact nilIsPrefixOf _
  | cons b bs ih =>
    cases t with
    | nil => left; exact nilIsPrefixOf _
    | cons a as =>
      simp only [List.cons_append, List.isPrefixOf, Bool.and_eq_true, beq_iff_eq] at h ⊢
      rcases ih h.2 with h1 | h1
      · left; exact ⟨h.1, h1⟩
      · right; exact ⟨h.1.symm, h1⟩

theorem eq_append_of_isPrefixOf {p l : List Char} (h : p.isPrefixOf l = true) :
    ∃ s, l = p ++ s := by
  induction p generalizing l with
  | nil => exact ⟨l, rfl⟩
  | cons a as ih =>
    cases l with
    | nil => simp [List.isPrefixOf] at h
    | cons b bs =>
      simp only [List.isPrefixOf, Bool.and_eq_true, beq_iff_eq] at h
      obtain ⟨s, hs⟩ := ih h.2
      exact ⟨s, by simp [h.1, hs]⟩

theorem containsSub_append {k c d : List Char} (h : containsSub k c = true) :
    containsSub k (c ++ d) = true := by
  induction c with
  | nil =>
    simp only [containsSub, List.isEmpty_iff] at h
    subst h
    cases d <;> simp [containsSub, List.isPrefixOf]
  | cons b bs ih =>
    simp only [containsSub, Bool.or_eq_true, List.cons_append] at h ⊢
    rcases h with h | h
    · exact Or.inl (isPrefixOf_append h)
    · exact Or.inr (ih h)

theorem hasSegKeyword_append {c d : List Char} (h : hasSegKeyword c = true) :
    hasSegKeyword (c ++ d) = true := by
  simp only [hasSegKeyword, List.any_eq_true] at h ⊢
  obtain ⟨k, hk, hc⟩ := h
  exact ⟨k, hk, containsSub_append hc⟩

theorem segKeyword_not_in_the {c : List Char} (h1 : hasSegKeyword c = true)
    (h2 : c.isPrefixOf "The ".data = true) : False := by
  obtain ⟨s, hs⟩ := eq_append_of_isPrefixOf h2
  have hlen : c.length ≤ 4 := by
    have hthe : ("The ".data).length = 4 := by decide
    have := congrArg List.length hs
    simp only [List.length_append, hthe] at this
    omega
  have hc : c = ("The ".data).take c.length := by
    conv_rhs => rw [hs]
    rw [List.take_left]
  have : c.length = 0 ∨ c.length = 1 ∨ c.length = 2 ∨ c.length = 3 ∨ c.length = 4 := by omega
  rcases this with h | h | h | h | h <;> rw [h] at hc <;> subst hc <;> revert h1 <;> decide

theorem segKeyword_not_in_these {c : List Char} (h1 : hasSegKeyword c = true)
    (h2 : c.isPrefixOf "These ".data = true) : False := by
  obtain ⟨s, hs⟩ := eq_append_of_isPrefixOf h2
  have hlen : c.length ≤ 6 := by
    have hthese : ("These ".data).length = 6 := by decide
    have := congrArg List.length hs
    simp only [List.length_append, hthese] at this
    omega
  have hc : c = ("These ".data).take c.length := by
    conv_rhs => rw [hs]
    rw [List.take_left]
  have : c.length = 0 ∨ c.length = 1 ∨ c.length = 2 ∨ c.length = 3 ∨ c.length = 4 ∨
      c.length = 5 ∨ c.length = 6 := by omega
  rcases this with h | h | h | h | h | h | h <;> rw [h] at hc <;> subst hc <;>
    revert h1 <;> decide

theorem noDoubleWs_tail {a : Char} {t : List Char} (h : noDoubleWs (a :: t) = true) :
    noDoubleWs t = true := by
  cases t with
  | nil => rfl
  | cons b bs =>
    simp only [noDoubleWs, Bool.and_eq_true] at h
    exact h.2

theorem collapseAux_true_head {l : List Char} {c : Char}
    (h : (collapseAux true l).head? = some c) : pyIsSpace c = false := by
  induction l with
  | nil => simp [collapseAux] at h
  | cons a as ih =>
    by_cases ha : pyIsSpace a = true
    · simp only [collapseAux, ha, if_true] at h
      exact ih h
    · simp only [collapseAux, ha, Bool.not_eq_true] at h
      rw [if_neg (by simp [ha])] at h
      simp only [List.head?_cons, Option.some_inj] at h
      subst h
      simpa using ha

theorem collapseAux_noDoubleWs (l : List Char) (b : Bool) :
    noDoubleWs (collapseAux b l) = true := by
  induction l generalizing b with
  | nil => rfl
  | cons a as ih =>
    by_cases ha : pyIsSpace a = true
    · cases b with
      | true => simpa [collapseAux, ha] using ih true
      | false =>
        simp only [collapseAux, ha, if_true]
        cases hrest : collapseAux true as with
        | nil => rfl
        | cons x xs =>
          have hx : pyIsSpace x = false := collapseAux_true_head (by rw [hrest]; rfl)
          have := ih true
          rw [hrest] at this
          simp [noDoubleWs, hx, this]
    · have ha' : pyIsSpace a = false := by simpa using ha
      simp only [collapseAux, ha', Bool.false_eq_true, if_false]
      cases hrest : collapseAux false as with
      | nil => rfl
      | cons x xs =>
        have := ih false
        rw [hrest] at this
        simp [noDoubleWs, ha', this]

theorem rstripBy_cons_nil (p : Char → Bool) (a : Char) {as : List Char}
    (h : rstripBy p as = []) :
    rstripBy p (a :: as) = if p a = true then [] else [a] := by
  simp only [rstripBy, h]

theorem rstripBy_cons_cons (p : Char → Bool) (a : Char) {as : List Char}
    {x : Char} {xs : List Char} (h : rstripBy p as = x :: xs) :
    rstripBy p (a :: as) = a :: x :: xs := by
  simp only [rstripBy, h]

theorem noDoubleWs_dropWhile (p : Char → Bool) (l : List Char)
    (h : noDoubleWs l = true) : noDoubleWs (l.dropWhile p) = true := by
  induction l with
  | nil => rfl
  | cons a as ih =>
    rw [List.dropWhile_cons]
    by_cases ha : p a = true
    · rw [if_pos ha]
      exact ih (noDoubleWs_tail h)
    · rw [if_neg ha]
      exact h

theorem noDoubleWs_rstripBy (p : Char → Bool) (l : List Char)
    (h : noDoubleWs l = true) : noDoubleWs (rstripBy p l) = true := by
  induction l with
  | nil => rfl
  | cons a as ih =>
    cases hr : rstripBy p as with
    | nil =>
      rw [rstripBy_cons_nil p a hr]
      by_cases hp : p a = true
      · rw [if_pos hp]; rfl
      · rw [if_neg hp]; rfl
    | cons x xs =>
      rw [rstripBy_cons_cons p a hr]
      have has : noDoubleWs as = true := noDoubleWs_tail h
      have hres : noDoubleWs (x :: xs) = true := by rw [← hr]; exact ih has
      cases as with
      | nil => simp [rstripBy] at hr
      | cons d ds =>
        have hxd : x = d := by
          cases hds : rstripBy p ds with
          | nil =>
            rw [rstripBy_cons_nil p d hds] at hr
            by_cases hp : p d = true
            · rw [if_pos hp] at hr; exact absurd hr (by simp)
            · rw [if_neg hp] at hr; injection hr with h1 _; exact h1.symm
          | cons y ys =>
            rw [rstripBy_cons_cons p d hds] at hr
            injection hr with h1 _; exact h1.symm
        subst hxd
        have h2 : (!(pyIsSpace a && pyIsSpace x) && noDoubleWs (x :: ds)) = true := h
        have hpair : (!(pyIsSpace a && pyIsSpace x)) = true :=
          ((Bool.and_eq_true _ _).mp h2).1
        show (!(pyIsSpace a && pyIsSpace x) && noDoubleWs (x :: xs)) = true
        exact (Bool.and_eq_true _ _).mpr ⟨hpair, hres⟩

theorem head_dropWhile_not (p : Char → Bool) (l : List Char) {c : Char}
    (h : (l.dropWhile p).head? = some c) : p c = false := by
  induction l with
  | nil => simp at h
  | cons a as ih =>
    rw [List.dropWhile_cons] at h
    by_cases ha : p a = true
    · rw [if_pos ha] at h
      exact ih h
    · rw [if_neg ha] at h
      simp only [List.head?_cons, Option.some_inj] at h
      subst h
      simpa using ha

theorem dropWhile_of_head_not (p : Char → Bool) (l : List Char)
    (h : ∀ c, l.head? = some c → p c = false) : l.dropWhile p = l := by
  cases l with
  | nil => rfl
  | cons a as =>
    have := h a rfl
    rw [List.dropWhile_cons, if_neg (by simp [this])]

theorem rstripBy_head (p : Char → Bool) (l : List Char) :
    rstripBy p l = [] ∨ (rstripBy p l).head? = l.head? := by
  cases l with
  | nil => exact Or.inl rfl
  | cons d ds =>
    cases hr : rstripBy p ds with
    | nil =>
      rw [rstripBy_cons_nil p d hr]
      by_cases hp : p d = true
      · rw [if_pos hp]; exact Or.inl rfl
      · rw [if_neg hp]; exact Or.inr rfl
    | cons x xs =>
      rw [rstripBy_cons_cons p d hr]
      exact Or.inr rfl

theorem rstripBy_idem (p : Char → Bool) (l : List Char) :
    rstripBy p (rstripBy p l) = rstripBy p l := by
  induction l with
  | nil => rfl
  | cons a as ih =>
    cases hr : rstripBy p as with
    | nil =>
      rw [rstripBy_cons_nil p a hr]
      by_cases hp : p a = true
      · rw [if_pos hp]; rfl
      · rw [if_neg hp, rstripBy_cons_nil p a (by rfl : rstripBy p ([] : List Char) = []),
          if_neg hp]
    | cons x xs =>
      rw [rstripBy_cons_cons p a hr]
      have hxx : rstripBy p (x :: xs) = x :: xs := by rw [← hr]; exact ih
      rw [rstripBy_cons_cons p a hxx]

theorem stripWs_idem (l : List Char) : stripWs (stripWs l) = stripWs l := by
  unfold stripWs rstripWs lstripWs
  have hhead : ∀ c, (rstripBy pyIsSpace (l.dropWhile pyIsSpace)).head? = some c →
      pyIsSpace c = false := by
    intro c hc
    rcases rstripBy_head pyIsSpace (l.dropWhile pyIsSpace) with h | h
    · rw [h] at hc; simp at hc
    · rw [h] at hc
      exact head_dropWhile_not pyIsSpace l hc
  rw [dropWhile_of_head_not pyIsSpace _ hhead, rstripBy_idem]

theorem stripWs_noDoubleWs {l : List Char} (h : noDoubleWs l = true) :
    noDoubleWs (stripWs l) = true := by
  unfold stripWs rstripWs lstripWs
  exact noDoubleWs_rstripBy _ _ (noDoubleWs_dropWhile _ _ h)

/-- The brand computed by `parse_entry` is trimmed and free of consecutive
whitespace, whichever branch produced it. -/
theorem deriveBrand_normalized (raw : List Char) :
    stripWs (deriveBrand raw) = deriveBrand raw ∧ noDoubleWs (deriveBrand raw) = true := by
  unfold deriveBrand
  cases aliasSearch raw with
  | none =>
    exact ⟨stripWs_idem _, stripWs_noDoubleWs (collapseAux_noDoubleWs _ _)⟩
  | some ic =>
    exact ⟨stripWs_idem _, stripWs_noDoubleWs (collapseAux_noDoubleWs _ _)⟩

/-! ### Helper lemmas about the section locator -/

theorem eq_nil_of_isPrefixOf_nil {m : List Char}
    (h : m.isPrefixOf ([] : List Char) = true) : m = [] := by
  cases m with
  | nil => rfl
  | cons a as => simp [List.isPrefixOf] at h

theorem occursAt_le {m t : List Char} {j : Nat} (hm : m ≠ []) (h : occursAt m t j) :
    j ≤ t.length := by
  by_contra hj
  push_neg at hj
  have hd : t.drop j = [] := List.drop_eq_nil_of_le (le_of_lt hj)
  unfold occursAt at h
  rw [hd] at h
  exact hm (eq_nil_of_isPrefixOf_nil h)

theorem rfindAux_some {m t : List Char} :
    ∀ {k i}, rfindAux m t k = some i →
      occursAt m t i ∧ i ≤ k ∧ ∀ j, i < j → j ≤ k → ¬ occursAt m t j := by
  intro k
  induction k with
  | zero =>
    intro i h
    unfold rfindAux at h
    by_cases hp : m.isPrefixOf t = true
    · rw [if_pos hp] at h
      have : i = 0 := (Option.some.inj h).symm
      subst this
      refine ⟨?_, le_refl 0, fun j hj1 hj2 => absurd (lt_of_lt_of_le hj1 hj2) (lt_irrefl 0)⟩
      unfold occursAt
      rw [List.drop_zero]
      exact hp
    · rw [if_neg hp] at h
      exact absurd h (by simp)
  | succ k ih =>
    intro i h
    unfold rfindAux at h
    by_cases hp : m.isPrefixOf (t.drop (k + 1)) = true
    · rw [if_pos hp] at h
      have : i = k + 1 := (Option.some.inj h).symm
      subst this
      exact ⟨hp, le_refl _, fun j hj1 hj2 => absurd (lt_of_lt_of_le hj1 hj2) (lt_irrefl _)⟩
    · rw [if_neg hp] at h
      obtain ⟨h1, h2, h3⟩ := ih h
      refine ⟨h1, le_trans h2 (Nat.le_succ k), fun j hj1 hj2 => ?_⟩
      rcases Nat.lt_or_ge j (k + 1) with hj | hj
      · exact h3 j hj1 (Nat.lt_succ_iff.mp hj)
      · have : j = k + 1 := le_antisymm hj2 hj
        subst this
        exact fun hc => hp hc

theorem rfindAux_none {m t : List Char} :
    ∀ {k}, rfindAux m t k = none → ∀ j, j ≤ k → ¬ occursAt m t j := by
  intro k
  induction k with
  | zero =>
    intro h j hj
    unfold rfindAux at h
    by_cases hp : m.isPrefixOf t = true
    · rw [if_pos hp] at h; exact absurd h (by simp)
    · interval_cases j
      intro hc
      unfold occursAt at hc
      rw [List.drop_zero] at hc
      exact hp hc
  | succ k ih =>
    intro h j hj
    unfold rfindAux at h
    by_cases hp : m.isPrefixOf (t.drop (k + 1)) = true
    · rw [if_pos hp] at h; exact absurd h (by simp)
    · rw [if_neg hp] at h
      rcases Nat.lt_or_ge j (k + 1) with hjk | hjk
      · exact ih h j (Nat.lt_succ_iff.mp hjk)
      · have : j = k + 1 := le_antisymm hj hjk
        subst this
        exact fun hc => hp hc

/-! ### Claim theorems -/

/-- Claim C2: for every input text and the fixed marker `"Appendix 1"`, if
the marker occurs, `get_entity_list_text` returns the substring from the
last occurrence of the marker to the end; if the marker does not occur, it
returns the original text unchanged. -/
theorem c2_section_locator (t : List Char) :
    ((∀ j, ¬ occursAt appendixMarker t j) → get_entity_list_text t = t) ∧
    (∀ i, occursAt appendixMarker t i →
      (∀ j, occursAt appendixMarker t j → j ≤ i) →
      get_entity_list_text t = t.drop i) := by
  unfold get_entity_list_text rfind
  cases hr : rfindAux appendixMarker t t.length with
  | none =>
    constructor
    · intro _; rfl
    · intro i hi _
      exact absurd hi (rfindAux_none hr i (occursAt_le (by decide) hi))
  | some k =>
    obtain ⟨hk, _, hmaxk⟩ := rfindAux_some hr
    constructor
    · intro hnone
      exact absurd hk (hnone k)
    · intro i hi hmax
      have h1 : k ≤ i := hmax k hk
      have h2 : i ≤ k := by
        by_contra hc
        push_neg at hc
        exact hmaxk i hc (occursAt_le (by decide) hi) hi
      rw [le_antisymm h2 h1]

/-- Witness for C2 at concrete inputs: a text whose last marker occurrence
is at index 25, and a text without the marker. -/
theorem c2_section_locator_witness :
    get_entity_list_text "preamble Appendix 1 list Appendix 1 tail".data =
      ("preamble Appendix 1 list Appendix 1 tail".data).drop 25 ∧
    get_entity_list_text "no marker here".data = "no marker here".data := by
  constructor
  · apply (c2_section_locator "preamble Appendix 1 list Appendix 1 tail".data).2 25 (by decide)
    intro j hj
    have hle : j ≤ 40 := occursAt_le (by decide) hj
    interval_cases j <;> first | decide | exact absurd hj (by decide)
  · apply (c2_section_locator "no marker here".data).1
    intro j hj
    have hle : j ≤ 14 := occursAt_le (by decide) hj
    interval_cases j <;> exact absurd hj (by decide)

/-- If the alias pattern matches at position 0 of the collapsed string, the
search reports position 0 with the same capture. -/
theorem aliasSearch_of_matchAt {raw cap : List Char}
    (h : matchAliasAt raw = some cap) : aliasSearch raw = some (0, cap) := by
  cases raw with
  | nil => simp [matchAliasAt] at h
  | cons c cs => simp [aliasSearch, h]

/-- When the alias clause starts at position 0 the derived brand is the
cleanup of the empty prefix, which is empty. -/
theorem deriveBrand_of_matchAt {raw cap : List Char}
    (h : matchAliasAt raw = some cap) : deriveBrand raw = [] := by
  rw [deriveBrand, aliasSearch_of_matchAt h]
  simp only [List.take_zero]
  rfl

/-- Claim C10: for every input whose whitespace-collapsed form begins with
an alias clause (the alias pattern matches at position 0), `parse_entry`
returns `none`, because the brand prefix before the clause is empty. -/
theorem c10_leading_alias_clause (s cap : List Char)
    (h : matchAliasAt (stripWs (collapseWs s)) = some cap) :
    parse_entry s = none := by
  unfold parse_entry
  split_ifs with h1 h2 h3
  · rfl
  · rfl
  · rfl
  · exact absurd (by rw [deriveBrand_of_matchAt h]; decide) h2

/-- Witness for C10: a concrete input that is exactly an alias clause,
whose capture even contains corporate-suffix keywords. -/
theorem c10_leading_alias_clause_witness :
    parse_entry "(also known as Mining Co. Ltd.)".data = none :=
  c10_leading_alias_clause "(also known as Mining Co. Ltd.)".data
    "Mining Co. Ltd.".data (by decide)

/-- Claim C4: whenever `parse_entry` returns a record, the brand contains
at least one keyword of the parser set (the segmentation set plus
`"Ninestar"` and `"Camel"`), case-insensitively. -/
theorem c4_keyword_invariant (s : List Char) (e : Entity)
    (h : parse_entry s = some e) : hasKeywordCI e.brand = true := by
  unfold parse_entry at h
  split_ifs at h with h1 h2 h3
  have he := Option.some.inj h
  rw [← he]
  simpa using h3

/-- Witness for C4 at a concrete accepted input. -/
theorem c4_keyword_invariant_witness :
    hasKeywordCI ("Kappa Logistics Park".data) = true :=
  c4_keyword_invariant "Kappa Logistics Park".data
    ⟨"Kappa Logistics Park".data, []⟩ (by decide)

/-- Claim C5: `parse_entry` (a total function, so it never raises) returns
`none` exactly when the collapsed input is empty or shorter than 5
characters, or the derived brand is empty or shorter than 5 characters, or
the derived brand contains no corporate-suffix keyword. -/
theorem c5_none_characterization (s : List Char) :
    parse_entry s = none ↔
      (stripWs (collapseWs s) = [] ∨ (stripWs (collapseWs s)).length < 5 ∨
       deriveBrand (stripWs (collapseWs s)) = [] ∨
       (deriveBrand (stripWs (collapseWs s))).length < 5 ∨
       hasKeywordCI (deriveBrand (stripWs (collapseWs s))) = false) := by
  unfold parse_entry
  split_ifs with h1 h2 h3
  · exact iff_of_true rfl (Or.inr (Or.inl h1))
  · exact iff_of_true rfl (Or.inr (Or.inr (Or.inr (Or.inl h2))))
  · exact iff_of_true rfl (Or.inr (Or.inr (Or.inr (Or.inr h3))))
  · apply iff_of_false
    · simp
    · intro hor
      rcases hor with hx | hx | hx | hx | hx
      · exact h1 (by rw [hx]; decide)
      · exact h1 hx
      · exact h2 (by rw [hx]; decide)
      · exact h2 hx
      · exact h3 hx

/-- Witness for C5: a too-short input is rejected. -/
theorem c5_none_characterization_witness :
    parse_entry "tiny".data = none :=
  (c5_none_characterization "tiny".data).mpr (by decide)

/-- Claim C8 (counterexample): the claim that a returned brand never ends
in `'.'`, `','` or `';'` fails: on input `"Abcde Co. ."` the single-pass
trailing strip exposes an earlier period separated by a space, and the
returned brand ends with `'.'`. -/
theorem c8_counterexample :
    parse_entry "Abcde Co. .".data = some ⟨"Abcde Co.".data, []⟩ ∧
    ("Abcde Co.".data).getLast? = some '.' := by
  constructor
  · decide
  · decide

/-- Claim C8 (amended): whenever `parse_entry` returns a record, the brand
is trimmed (stripping is the identity on it) and contains no run of two or
more consecutive whitespace characters. The final-character condition of
the original claim is dropped: it fails, as `c8_counterexample` shows. -/
theorem c8_amended_normalization (s : List Char) (e : Entity)
    (h : parse_entry s = some e) :
    stripWs e.brand = e.brand ∧ noDoubleWs e.brand = true := by
  unfold parse_entry at h
  split_ifs at h with h1 h2 h3
  have he := Option.some.inj h
  rw [← he]
  exact deriveBrand_normalized _

/-- Witness for the amended C8 at a concrete accepted input. -/
theorem c8_amended_normalization_witness :
    stripWs ("Delta Energy Co".data) = "Delta Energy Co".data ∧
    noDoubleWs ("Delta Energy Co".data) = true :=
  c8_amended_normalization "Delta  Energy   Co.".data
    ⟨"Delta Energy Co".data, []⟩ (by decide)

/-- Claim C1 (counterexample): on the spec's example input the returned
record is NOT `{brand := "Acme Textile Co.", aliases := [...]}`: the
`rstrip(".,;(")` step removes the trailing period of the brand. -/
theorem c1_counterexample :
    parse_entry "Acme Textile Co. (also known as Acme Textiles; and Acme Tex)".data ≠
      some ⟨"Acme Textile Co.".data, ["Acme Textiles".data, "Acme Tex".data]⟩ := by
  decide

/-- Claim C1 (amended): on the example input the parser returns brand
`"Acme Textile Co"` (trailing period stripped) with aliases
`["Acme Textiles", "Acme Tex"]` in that order. -/
theorem c1_alias_extraction :
    parse_entry "Acme Textile Co. (also known as Acme Textiles; and Acme Tex)".data =
      some ⟨"Acme Textile Co".data, ["Acme Textiles".data, "Acme Tex".data]⟩ := by
  decide

/-- Claim C7: the list-section accumulator, fed the consecutive lines
`"Beta Holdings Group"` and `"(a subsidiary of Gamma)"` and nothing else,
emits exactly one `list`-tagged raw entry, the space-joined string. -/
theorem c7_list_continuation :
    processLines none ["Beta Holdings Group".data, "(a subsidiary of Gamma)".data] =
      [(Tag.list, "Beta Holdings Group (a subsidiary of Gamma)".data)] := by
  decide

set_option maxRecDepth 40000 in
/-- Claim C6: for the single entity `{brand: "O'Brien Mining", aliases: []}`
the rendered SQL contains the row with brand `'O''Brien Mining'` (embedded
quote doubled) and empty alias literal; and in general string values are
escaped exactly by doubling embedded single quotes. -/
theorem c6_sql_rendering :
    generate_sql [⟨'O' :: sq :: "Brien Mining".data, []⟩] =
      ("-- UFLPA Entity List (January 15, 2025)\n-- Generated by scripts/seed_uflpa.py\n-- 1 entities\n\nINSERT INTO companies (brand, aliases, product_categories, countries_of_origin, risk_level, sources, reason, last_updated)\nVALUES\n  (".data
        ++ [sq, 'O', sq, sq] ++ "Brien Mining".data ++ [sq] ++ ", ".data
        ++ [sq, lbr, rbr, sq] ++ ", ".data
        ++ [sq, lbr, dq] ++ "general".data ++ [dq, rbr, sq] ++ ", ".data
        ++ [sq, lbr, dq] ++ "CN".data ++ [dq, rbr, sq] ++ ", ".data
        ++ [sq] ++ "high".data ++ [sq] ++ ", ".data
        ++ [sq, lbr, dq] ++ "UFLPA".data ++ [dq, rbr, sq] ++ ", ".data
        ++ [sq] ++ "Listed on UFLPA Entity List. Subject to rebuttable presumption of forced labor under 19 U.S.C. § 1307.".data ++ [sq] ++ ", ".data
        ++ [sq] ++ "2025-01-15".data ++ [sq] ++ ")".data ++ ";".data) ∧
    (∀ a : List Char, escape_sql a = a.flatMap (fun c => if c = sq then [sq, sq] else [c])) := by
  constructor
  · decide
  · intro a
    induction a with
    | nil => rfl
    | cons c cs ih =>
      by_cases hc : c = sq
      · simp [escape_sql, hc, ih]
      · simp [escape_sql, hc, ih]

/-! ### Invariant of the list-section accumulator (for C9) -/

theorem mem_flushCur {cur : Option (List Char)} {te : Tag × List Char}
    (h : te ∈ flushCur cur) : ∃ c, cur = some c ∧ te = (Tag.list, c) := by
  cases cur with
  | none => simp [flushCur] at h
  | some c =>
    simp only [flushCur, List.mem_singleton] at h
    exact ⟨c, rfl, h⟩

theorem newEntry_entryShape {l : List Char} (h : isNewEntryLine l = true) :
    entryShape l := by
  cases l with
  | nil => simp [isNewEntryLine] at h
  | cons a as =>
    simp only [isNewEntryLine, Bool.and_eq_true, Bool.not_eq_true'] at h
    obtain ⟨⟨⟨hu, hk⟩, ht⟩, hts⟩ := h
    exact ⟨hu, hk, ht, hts⟩

theorem entryShape_append {c : List Char} (line : List Char) (h : entryShape c) :
    entryShape (c ++ ' ' :: line) := by
  obtain ⟨hu, hk, ht, hts⟩ := h
  cases c with
  | nil => simp [List.headD] at hu
  | cons a as =>
    refine ⟨hu, hasSegKeyword_append hk, ?_, ?_⟩
    · by_contra hc
      rw [Bool.not_eq_false] at hc
      rcases isPrefixOf_append_cases hc with h1 | h1
      · rw [ht] at h1; exact Bool.false_ne_true h1
      · exact segKeyword_not_in_the hk h1
    · by_contra hc
      rw [Bool.not_eq_false] at hc
      rcases isPrefixOf_append_cases hc with h1 | h1
      · rw [hts] at h1; exact Bool.false_ne_true h1
      · exact segKeyword_not_in_these hk h1

theorem processLines_shape :
    ∀ (lines : List (List Char)) (cur : Option (List Char)),
      (∀ c, cur = some c → entryShape c) →
      ∀ te ∈ processLines cur lines, te.1 = Tag.list ∧ entryShape te.2 := by
  intro lines
  induction lines with
  | nil =>
    intro cur hcur te hte
    simp only [processLines] at hte
    obtain ⟨c, hc, hte2⟩ := mem_flushCur hte
    subst hte2
    exact ⟨rfl, hcur c hc⟩
  | cons line rest ih =>
    intro cur hcur te hte
    by_cases hh : isHeaderLine line = true
    · simp only [processLines] at hte
      rw [if_pos hh] at hte
      rcases List.mem_append.mp hte with hm | hm
      · obtain ⟨c, hc, hte2⟩ := mem_flushCur hm
        subst hte2
        exact ⟨rfl, hcur c hc⟩
      · exact ih none (by intro c hc; cases hc) te hm
    · by_cases hn : isNewEntryLine line = true
      · simp only [processLines] at hte
        rw [if_neg hh, if_pos hn] at hte
        rcases List.mem_append.mp hte with hm | hm
        · obtain ⟨c, hc, hte2⟩ := mem_flushCur hm
          subst hte2
          exact ⟨rfl, hcur c hc⟩
        · refine ih (some line) ?_ te hm
          intro c hc
          injection hc with hc
          rw [← hc]
          exact newEntry_entryShape hn
      · cases cur with
        | none =>
          simp only [processLines] at hte
          rw [if_neg hh, if_neg hn] at hte
          exact ih none (by intro c hc; cases hc) te hte
        | some c =>
          simp only [processLines] at hte
          rw [if_neg hh, if_neg hn] at hte
          by_cases hcont : isContinuationLine line = true
          · rw [if_pos hcont] at hte
            refine ih (some (c ++ ' ' :: line)) ?_ te hte
            intro c' hc'
            injection hc' with hc'
            rw [← hc']
            exact entryShape_append line (hcur c rfl)
          · rw [if_neg hcont] at hte
            rcases List.mem_cons.mp hte with rfl | hm
            · exact ⟨rfl, hcur c rfl⟩
            · exact ih none (by intro c' hc'; cases hc') te hm

/-- Claim C9: every raw entry emitted by the consolidated-list accumulator
is `list`-tagged, begins with an uppercase character, contains a keyword of
the case-sensitive segmentation set, and does not start with `"The "` or
`"These "`: the entry began as a line passing the new-entry predicate and
continuations only extend it on the right. -/
theorem c9_list_entry_invariant (lines : List (List Char)) (te : Tag × List Char)
    (h : te ∈ processLines none lines) :
    te.1 = Tag.list ∧ ((te.2).headD ' ').isUpper = true ∧ hasSegKeyword te.2 = true ∧
    "The ".data.isPrefixOf te.2 = false ∧ "These ".data.isPrefixOf te.2 = false := by
  have hs := processLines_shape lines none (by intro c hc; cases hc) te h
  exact ⟨hs.1, hs.2.1, hs.2.2.1, hs.2.2.2.1, hs.2.2.2.2⟩

/-- Witness for C9 at a concrete two-line input producing one entry. -/
theorem c9_list_entry_invariant_witness :
    ((Tag.list, "Epsilon Trading Ltd. (a venture)".data) : Tag × List Char).1 = Tag.list ∧
    (("Epsilon Trading Ltd. (a venture)".data).headD ' ').isUpper = true ∧
    hasSegKeyword "Epsilon Trading Ltd. (a venture)".data = true ∧
    "The ".data.isPrefixOf "Epsilon Trading Ltd. (a venture)".data = false ∧
    "These ".data.isPrefixOf "Epsilon Trading Ltd. (a venture)".data = false :=
  c9_list_entry_invariant ["Epsilon Trading Ltd.".data, "(a venture)".data]
    (Tag.list, "Epsilon Trading Ltd. (a venture)".data) (by decide)

/-! ### Invariants of the deduplicating main loop (for C3) -/

theorem dedupAux_spec :
    ∀ (raws : List (Tag × List Char)) (seen : List (List Char)),
      List.Pairwise (fun a b => lc a.brand ≠ lc b.brand) (dedupAux seen raws) ∧
      (dedupAux seen raws).Sublist (parsedOf raws) ∧
      (∀ e ∈ dedupAux seen raws, lc e.brand ∉ seen ∧
        ∃ pre post, parsedOf raws = pre ++ e :: post ∧
          ∀ p ∈ pre, lc p.brand ≠ lc e.brand) ∧
      (∀ p ∈ parsedOf raws, lc p.brand ∈ seen ∨
        ∃ e ∈ dedupAux seen raws, lc e.brand = lc p.brand) := by
  intro raws
  induction raws with
  | nil =>
    intro seen
    refine ⟨List.Pairwise.nil, List.nil_sublist _, ?_, ?_⟩
    · intro e he; simp [dedupAux] at he
    · intro p hp; simp [parsedOf] at hp
  | cons raw rest ih =>
    intro seen
    cases hp : parse_entry raw.2 with
    | none =>
      have hd : dedupAux seen (raw :: rest) = dedupAux seen rest := by
        simp [dedupAux, hp]
      have hpp : parsedOf (raw :: rest) = parsedOf rest := by
        simp [parsedOf, List.filterMap_cons, hp]
      rw [hd, hpp]
      exact ih seen
    | some e =>
      have hpp : parsedOf (raw :: rest) = e :: parsedOf rest := by
        simp [parsedOf, List.filterMap_cons, hp]
      by_cases hs : lc e.brand ∈ seen
      · have hd : dedupAux seen (raw :: rest) = dedupAux seen rest := by
          simp [dedupAux, hp, hs]
        rw [hd, hpp]
        obtain ⟨ih1, ih2, ih3, ih4⟩ := ih seen
        refine ⟨ih1, ih2.cons e, ?_, ?_⟩
        · intro x hx
          obtain ⟨hx1, pre, post, hsplit, hpre⟩ := ih3 x hx
          refine ⟨hx1, e :: pre, post, by simp [hsplit], ?_⟩
          intro p hpmem
          rcases List.mem_cons.mp hpmem with rfl | hpm
          · exact fun heq => hx1 (heq ▸ hs)
          · exact hpre p hpm
        · intro p hpmem
          rcases List.mem_cons.mp hpmem with rfl | hm
          · exact Or.inl hs
          · exact ih4 p hm
      · have hd : dedupAux seen (raw :: rest) =
            e :: dedupAux (lc e.brand :: seen) rest := by
          simp [dedupAux, hp, hs]
        rw [hd, hpp]
        obtain ⟨ih1, ih2, ih3, ih4⟩ := ih (lc e.brand :: seen)
        refine ⟨?_, ih2.cons₂ e, ?_, ?_⟩
        · refine List.Pairwise.cons ?_ ih1
          intro b hb
          have hnb := (ih3 b hb).1
          exact fun heq => hnb (heq ▸ List.mem_cons_self _ _)
        · intro x hx
          rcases List.mem_cons.mp hx with rfl | hm
          · exact ⟨hs, [], parsedOf rest, rfl, by simp⟩
          · obtain ⟨hx1, pre, post, hsplit, hpre⟩ := ih3 x hm
            have hxe : lc x.brand ≠ lc e.brand :=
              fun heq => hx1 (heq ▸ List.mem_cons_self _ _)
            refine ⟨fun hmem => hx1 (List.mem_cons_of_mem _ hmem),
              e :: pre, post, by simp [hsplit], ?_⟩
            intro p hpmem
            rcases List.mem_cons.mp hpmem with rfl | hpm
            · exact fun heq => hxe heq.symm
            · exact hpre p hpm
        · intro p hpmem
          rcases List.mem_cons.mp hpmem with heqp | hm
          · exact Or.inr ⟨e, List.mem_cons_self _ _, by rw [heqp]⟩
          · rcases ih4 p hm with hin | ⟨x, hxmem, heq⟩
            · rcases List.mem_cons.mp hin with heq2 | hin2
              · exact Or.inr ⟨e, List.mem_cons_self _ _, heq2.symm⟩
              · exact Or.inl hin2
            · exact Or.inr ⟨x, List.mem_cons_of_mem _ hxmem, heq⟩

/-- Claim C3: the deduplicated list built by the main loop has pairwise
distinct lowercased brands, is a subsequence of the parsed records (hence
in first-seen order), each emitted record is the earliest parsed record
with its dedup key, and every parsed record's key is represented. -/
theorem c3_dedup_invariant (raws : List (Tag × List Char)) :
    List.Pairwise (fun a b => lc a.brand ≠ lc b.brand) (mainEntities raws) ∧
    (mainEntities raws).Sublist (parsedOf raws) ∧
    (∀ e ∈ mainEntities raws,
      ∃ pre post, parsedOf raws = pre ++ e :: post ∧
        ∀ p ∈ pre, lc p.brand ≠ lc e.brand) ∧
    (∀ p ∈ parsedOf raws, ∃ e ∈ mainEntities raws, lc e.brand = lc p.brand) := by
  obtain ⟨h1, h2, h3, h4⟩ := dedupAux_spec raws []
  refine ⟨h1, h2, fun e he => (h3 e he).2, fun p hp => ?_⟩
  rcases h4 p hp with hin | h
  · simp at hin
  · exact h

/-- Witness for C3 at a concrete input with a case-duplicate and a
rejected entry. -/
theorem c3_dedup_invariant_witness :
    List.Pairwise (fun a b => lc a.brand ≠ lc b.brand)
      (mainEntities [(Tag.bullet, "Acme Mining Corp.".data),
        (Tag.list, "ACME MINING CORP".data), (Tag.bullet, "nope".data)]) ∧
    (mainEntities [(Tag.bullet, "Acme Mining Corp.".data),
        (Tag.list, "ACME MINING CORP".data), (Tag.bullet, "nope".data)]).Sublist
      (parsedOf [(Tag.bullet, "Acme Mining Corp.".data),
        (Tag.list, "ACME MINING CORP".data), (Tag.bullet, "nope".data)]) :=
  ⟨(c3_dedup_invariant _).1, (c3_dedup_invariant _).2.1⟩

end Uflpa
